import Mathlib

/-!
A verification development for the go-env-flags resolution engine.

Go strings are embedded as `List Char` (rune sequences); Go maps used as
environment sets are embedded as association lists with map semantics; the
configuration structure is embedded as the flattened list of its annotated
leaf fields (nested composites are walked recursively by the Go code, which
is traversal-order preserving, so the flat list is the traversal).
-/

namespace GoEnvFlags

/-- A Go string, as its rune sequence. -/
abbrev GoStr := List Char

/-- Go strings.SplitN(s, sep, 2) for a one-character separator: the part
before the first occurrence of the separator and, when the separator occurs
at all, the part after it. -/
def splitN2 (c : Char) : GoStr → GoStr × Option GoStr
  | [] => ([], none)
  | x :: xs =>
    if x = c then ([], some xs)
    else
      let r := splitN2 c xs
      (x :: r.1, r.2)

/-- Go strings.Split(s, sep) for a one-character separator. -/
def splitOnChar (c : Char) : GoStr → List GoStr
  | [] => [[]]
  | x :: xs =>
    if x = c then [] :: splitOnChar c xs
    else
      match splitOnChar c xs with
      | [] => [[x]]
      | p :: ps => (x :: p) :: ps

/-- Go strings.Split(s, sep) for a non-empty separator string, fuelled by the
length of the scanned string so that the definition is structurally
recursive.  The empty-separator case of strings.Split is never reached from
`set`, which always supplies a non-empty separator. -/
def goSplitAux (sep : GoStr) : Nat → GoStr → List GoStr
  | _, [] => [[]]
  | 0, s => [s]
  | fuel + 1, c :: rest =>
    if sep ≠ [] ∧ sep.isPrefixOf (c :: rest) then
      [] :: goSplitAux sep fuel ((c :: rest).drop sep.length)
    else
      match goSplitAux sep fuel rest with
      | [] => [[c]]
      | p :: ps => (c :: p) :: ps

/-- Go strings.Split for a non-empty separator. -/
def goSplit (sep s : GoStr) : List GoStr := goSplitAux sep s.length s

/-- Go strings.ToLower; only ASCII letters ever reach it in this development
(the transliterator replaces every non-ASCII-alphanumeric rune by a hyphen
before lowering, and tag option names only match when ASCII). -/
def lowerStr (s : GoStr) : GoStr := s.map Char.toLower

/-- Go strings.Contains(s, c) for a one-character needle. -/
def hasChar (c : Char) : GoStr → Bool
  | [] => false
  | x :: xs => x == c || hasChar c xs

/-- The parsed "env" field tag (struct `tag` in env.go). -/
structure tag where
  Keys : List GoStr := []
  Default : GoStr := []
  Required : Bool := false
  Separator : GoStr := []
  Flag : GoStr := []
  Desc : GoStr := []
deriving DecidableEq

/-- One comma-token step of parseTag (env.go): a bare token is appended to the
candidate keys, a name=value token sets the matching option, and an
unrecognized option name is ignored. -/
def parseTagStep (t : tag) (key : GoStr) : tag :=
  if hasChar '=' key = false then { t with Keys := t.Keys ++ [key] }
  else
    let kd := splitN2 '=' key
    let v := kd.2.getD []
    let name := lowerStr kd.1
    if name = "default".toList then { t with Default := v }
    else if name = "required".toList then { t with Required := lowerStr v == "true".toList }
    else if name = "separator".toList then { t with Separator := v }
    else if name = "flag".toList then { t with Flag := v }
    else if name = "desc".toList then { t with Desc := v }
    else t

/-- parseTag (env.go): split the annotation on commas and fold the tokens. -/
def parseTag (tagString : GoStr) : tag :=
  (splitOnChar ',' tagString).foldl parseTagStep {}

/-- The character loop of toFlagName (flag.go), with the previous rune as
state; `prev` starts as the zero rune exactly as in the Go code. -/
def toFlagNameAux : Char → GoStr → GoStr
  | _, [] => []
  | prev, r :: rest =>
    (if ('A' ≤ r ∧ r ≤ 'Z') ∧ ('a' ≤ prev ∧ prev ≤ 'z') then ['-', r]
     else if ¬('A' ≤ r ∧ r ≤ 'Z') ∧ ¬('a' ≤ r ∧ r ≤ 'z') ∧ ¬('0' ≤ r ∧ r ≤ '9') then ['-']
     else [r]) ++ toFlagNameAux r rest

/-- toFlagName (flag.go): hyphen before an upper-after-lower boundary, hyphen
for every rune that is not an ASCII letter or digit, then lowercase. -/
def toFlagName (s : GoStr) : GoStr := lowerStr (toFlagNameAux (Char.ofNat 0) s)

/-- One registered flag: name, default, usage text, current string value, and
whether it was explicitly set by the caller (flag.Visit reports exactly the
explicitly-set flags). -/
structure FlagEntry where
  name : GoStr
  defValue : GoStr
  usage : GoStr
  value : GoStr
  wasSet : Bool
deriving DecidableEq

/-- The flag set, in registration order; names are unique by construction. -/
abbrev FlagSet := List FlagEntry

/-- flag.FlagSet.Lookup. -/
def lookupFlag (fs : FlagSet) (n : GoStr) : Option FlagEntry :=
  fs.find? (fun e => e.name == n)

/-- isFlagSet (flag.go): flag.Visit walks the explicitly-set flags and the
visitor looks for a name match. -/
def isFlagSet (fs : FlagSet) (n : GoStr) : Bool :=
  fs.any (fun e => e.wasSet && e.name == n)

/-- flags.Lookup(name).Value.String(), as read by Unmarshal after an
isFlagSet guard has established that the flag exists. -/
def flagValue (fs : FlagSet) (n : GoStr) : GoStr :=
  ((lookupFlag fs n).map FlagEntry.value).getD []

/-- strings.Join. -/
def joinSep (sep : GoStr) : List GoStr → GoStr
  | [] => []
  | [x] => x
  | x :: y :: rest => x ++ sep ++ joinSep sep (y :: rest)

/-- generateDescription (flag.go). -/
def generateDescription (t : tag) : GoStr :=
  let parts : List GoStr :=
    (if t.Desc ≠ [] then [t.Desc] else []) ++
    (if t.Keys ≠ [] then ["Environment: ".toList ++ joinSep ", ".toList t.Keys] else []) ++
    (if t.Default ≠ [] then ["Default: ".toList ++ t.Default] else []) ++
    (if t.Required then ["Required: true".toList] else [])
  joinSep ". ".toList parts

/-- Signed integer field widths; the machine `int` of a 64-bit platform is
`i64`, matching the strconv.Atoi range used by `set`. -/
inductive IntW where
  | i8 | i16 | i32 | i64
deriving DecidableEq

/-- Unsigned integer field widths; machine `uint` is `u64`. -/
inductive UintW where
  | u8 | u16 | u32 | u64
deriving DecidableEq

def IntW.bits : IntW → Nat
  | .i8 => 8
  | .i16 => 16
  | .i32 => 32
  | .i64 => 64

def UintW.bits : UintW → Nat
  | .u8 => 8
  | .u16 => 16
  | .u32 => 32
  | .u64 => 64

/-- The field types the claims exercise; `other` stands for any field type
with no coercion path (the default branch of `set`).  The float, duration and
custom-Unmarshaler branches of `set` are outside this model: no claim
touches them. -/
inductive GoType where
  | string
  | bool
  | int (w : IntW)
  | uint (w : UintW)
  | ptr (elem : GoType)
  | slice (elem : GoType)
  | other
deriving DecidableEq

/-- A Go field value of one of the modelled types. -/
inductive GoVal where
  | str (s : GoStr)
  | boolV (b : Bool)
  | intV (n : Int)
  | uintV (n : Nat)
  | ptrV (p : Option GoVal)
  | sliceV (elems : List GoVal)

/-- A flattened annotated leaf field of the configuration structure: its raw
"env" annotation (empty means unannotated and skipped), its type, and its
current value. -/
structure Field where
  tag : GoStr
  type : GoType
  value : GoVal

/-- The error taxonomy of the package (env.go). -/
inductive GoErr where
  | invalidValue
  | unsupportedType
  | unexportedField
  | missingRequiredValue (key : GoStr)
  | parseError
deriving DecidableEq

/-- flag.FlagSet.String: registers a fresh string flag whose current value is
its default; Go panics when the name is already registered, modelled as
`none`. -/
def flagString (fs : FlagSet) (n defv usage : GoStr) : Option FlagSet :=
  if (lookupFlag fs n).isSome then none
  else some (fs ++ [⟨n, defv, usage, defv, false⟩])

/-- The per-candidate-key loop of registerStructFlags (flag.go lines 76-81):
each key's derived name is registered only when not already present. -/
def registerKeyFlags (defv usage : GoStr) : FlagSet → List GoStr → FlagSet
  | fs, [] => fs
  | fs, k :: ks =>
    let n := toFlagName k
    let fs' := if (lookupFlag fs n).isSome then fs
               else fs ++ [⟨n, defv, usage, defv, false⟩]
    registerKeyFlags defv usage fs' ks

/-- registerStructFlags (flag.go) over the flattened leaf fields: the explicit
override name is registered unguarded (a duplicate override name panics in
Go, modelled as `none`), then one flag per candidate key with the
already-present guard. -/
def registerStructFlags (fs : FlagSet) : List Field → Option FlagSet
  | [] => some fs
  | f :: rest =>
    if f.tag = [] then registerStructFlags fs rest
    else
      let t := parseTag f.tag
      let desc := generateDescription t
      match (if t.Flag ≠ [] then flagString fs t.Flag t.Default desc else some fs) with
      | none => none
      | some fs1 => registerStructFlags (registerKeyFlags t.Default desc fs1 t.Keys) rest

/-- RegisterFlags (flag.go).  The Go argument is an interface value checked to
be a non-nil pointer to a struct; `none` models every failing shape of that
check and `some fields` a valid structure reference with the given flattened
annotated leaves. -/
def RegisterFlags : Option (List Field) → Except GoErr (Option FlagSet)
  | none => .error .invalidValue
  | some fields => .ok (registerStructFlags [] fields)

/-- ASCII decimal digit test. -/
def isDigitCh (c : Char) : Bool := decide ('0' ≤ c ∧ c ≤ '9')

/-- The numeric value of an ASCII digit. -/
def digitVal (c : Char) : Nat := c.toNat - 48

/-- A non-empty all-digit string parsed to its decimal value. -/
def parseNatDigits (s : GoStr) : Option Nat :=
  if s = [] then none
  else if s.all isDigitCh then some (s.foldl (fun a c => a * 10 + digitVal c) 0)
  else none

/-- strconv.Atoi: optional sign, decimal digits, 64-bit int range (out of
range is an error, never a value). -/
def atoi (s : GoStr) : Option Int :=
  match s with
  | [] => none
  | c :: rest =>
    if c = '+' then
      (parseNatDigits rest).bind fun n =>
        if n ≤ 9223372036854775807 then some (n : Int) else none
    else if c = '-' then
      (parseNatDigits rest).bind fun n =>
        if n ≤ 9223372036854775808 then some (-(n : Int)) else none
    else
      (parseNatDigits (c :: rest)).bind fun n =>
        if n ≤ 9223372036854775807 then some (n : Int) else none

/-- strconv.ParseUint(s, 10, 64): digits only, no sign, 64-bit range. -/
def goParseUint (s : GoStr) : Option Nat :=
  (parseNatDigits s).bind fun n =>
    if n < 18446744073709551616 then some n else none

/-- strconv.ParseBool. -/
def goParseBool (s : GoStr) : Option Bool :=
  if s ∈ ["1".toList, "t".toList, "T".toList, "TRUE".toList, "true".toList, "True".toList]
  then some true
  else if s ∈ ["0".toList, "f".toList, "F".toList, "FALSE".toList, "false".toList, "False".toList]
  then some false
  else none

/-- The Go conversion int<w>(x) performed by reflect.Value.SetInt: the value
is stored wrapped modulo 2^bits in two's complement, silently. -/
def signedWrap (w : IntW) (n : Int) : Int :=
  (n + 2 ^ (w.bits - 1)) % (2 ^ w.bits : Int) - 2 ^ (w.bits - 1)

/-- The Go conversion uint<w>(x) performed by reflect.Value.SetUint. -/
def unsignedWrap (w : UintW) (n : Nat) : Nat := n % 2 ^ w.bits

/-- Structural depth of a type, the fuel needed by `setValF`. -/
def GoType.depth : GoType → Nat
  | .ptr t => t.depth + 1
  | .slice t => t.depth + 1
  | _ => 1

/-- The element loop of the slice branch of `set`: coerce each piece in
declared order, stopping at the first error. -/
def mapSet (g : GoStr → Except GoErr GoVal) : List GoStr → Except GoErr (List GoVal)
  | [] => .ok []
  | p :: ps => do
    let v ← g p
    let vs ← mapSet g ps
    .ok (v :: vs)

/-- set (env.go), with a fuel argument bounding the structural depth of the
type so that the slice-element recursion is structurally terminating;
`setVal` supplies sufficient fuel, so the fuel-exhausted branch is
unreachable. -/
def setValF : Nat → GoType → GoStr → GoStr → Except GoErr GoVal
  | 0, _, _, _ => .error .unsupportedType
  | fuel + 1, t, value, sliceSeparator =>
    match t with
    | .ptr elem => (setValF fuel elem value sliceSeparator).map (fun x => .ptrV (some x))
    | .string => .ok (.str value)
    | .bool =>
      match goParseBool value with
      | some b => .ok (.boolV b)
      | none => .error .parseError
    | .int w =>
      match atoi value with
      | some n => .ok (.intV (signedWrap w n))
      | none => .error .parseError
    | .uint w =>
      match goParseUint value with
      | some n => .ok (.uintV (unsignedWrap w n))
      | none => .error .parseError
    | .slice elem =>
      let sep := if sliceSeparator = [] then ['|'] else sliceSeparator
      let values := goSplit sep value
      match elem with
      | .string => .ok (.sliceV (values.map GoVal.str))
      | _ => (mapSet (fun v => setValF fuel elem v sep) values).map GoVal.sliceV
    | .other => .error .unsupportedType

/-- set (env.go): coerce the winning raw string into the field's type. -/
def setVal (t : GoType) (value sliceSeparator : GoStr) : Except GoErr GoVal :=
  setValF t.depth t value sliceSeparator

/-- The environment set: a Go map from key to value, as an association list
with the map operations below keeping keys unique. -/
abbrev EnvSet := List (GoStr × GoStr)

/-- Map read, also reporting presence (`v, ok := es[k]`). -/
def envLookup (es : EnvSet) (k : GoStr) : Option GoStr :=
  (es.find? (fun p => p.1 == k)).map Prod.snd

/-- Map deletion (`delete(es, k)`). -/
def envErase (es : EnvSet) (k : GoStr) : EnvSet :=
  es.filter (fun p => p.1 != k)

/-- Map write (`es[k] = v`). -/
def envInsert (es : EnvSet) (k v : GoStr) : EnvSet :=
  if (es.find? (fun p => p.1 == k)).isSome then
    es.map (fun p => if p.1 == k then (k, v) else p)
  else es ++ [(k, v)]

/-- Outcome of the per-field value resolution in Unmarshal. -/
inductive Resolution where
  | value (v : GoStr)
  | untouched
  | missingRequired (key : GoStr)
deriving DecidableEq

/-- The value of a flag when that flag was explicitly set, else nothing
(the `ok = isFlagSet(...); if ok { envValue = f.Value.String() }` step). -/
def findFlagVal (fs : FlagSet) (name : GoStr) : Option GoStr :=
  if isFlagSet fs name then some (flagValue fs name) else none

/-- The candidate-key flag loop of Unmarshal (env.go lines 132-142): the
first key in declared order whose derived flag name was explicitly set. -/
def firstKeyFlag (fs : FlagSet) : List GoStr → Option GoStr
  | [] => none
  | k :: ks =>
    match findFlagVal fs (toFlagName k) with
    | some v => some v
    | none => firstKeyFlag fs ks

/-- The environment loop of Unmarshal (env.go lines 145-152): the first key
in declared order present in the environment set. -/
def firstKeyEnv (es : EnvSet) : List GoStr → Option GoStr
  | [] => none
  | k :: ks =>
    match envLookup es k with
    | some v => some v
    | none => firstKeyEnv es ks

/-- The per-field resolution chain of Unmarshal (env.go lines 120-162),
returning the winning raw string, the untouched outcome, or the
missing-required outcome naming the first candidate key.  (When the key list
is empty the Go code would panic indexing Keys[0]; no claim reaches that
corner and `headD` keeps the model total.) -/
def resolveField (fs : FlagSet) (es : EnvSet) (t : tag) : Resolution :=
  let fromOverride := if t.Flag ≠ [] then findFlagVal fs t.Flag else none
  let fromFlags :=
    match fromOverride with
    | some v => some v
    | none => firstKeyFlag fs t.Keys
  let fromAny :=
    match fromFlags with
    | some v => some v
    | none => firstKeyEnv es t.Keys
  match fromAny with
  | some v => .value v
  | none =>
    if t.Default ≠ [] then .value t.Default
    else if t.Required then .missingRequired (t.Keys.headD [])
    else .untouched

/-- One leaf-field step of Unmarshal: resolve, coerce, and on success delete
the raw annotation string itself from the environment set — env.go line 167
is `delete(es, tag)` where `tag` is the whole annotation, not a candidate
key. -/
def unmarshalField (fs : FlagSet) (f : Field) (es : EnvSet) :
    Field × EnvSet × Option GoErr :=
  if f.tag = [] then (f, es, none)
  else
    let t := parseTag f.tag
    match resolveField fs es t with
    | .untouched => (f, es, none)
    | .missingRequired k => (f, es, some (.missingRequiredValue k))
    | .value v =>
      match setVal f.type v t.Separator with
      | .error e => (f, es, some e)
      | .ok newVal => ({ f with value := newVal }, envErase es f.tag, none)

/-- Unmarshal (env.go) over the flattened annotated leaf fields, left to
right, stopping at the first error; fields and environment entries mutated
before the error keep their new state (in-place mutation, no rollback), and
fields after the error keep their old values. -/
def Unmarshal (fs : FlagSet) : List Field → EnvSet → List Field × EnvSet × Option GoErr
  | [], es => ([], es, none)
  | f :: rest, es =>
    match unmarshalField fs f es with
    | (f', es', some e) => (f' :: rest, es', some e)
    | (f', es', none) =>
      let r := Unmarshal fs rest es'
      (f' :: r.1, r.2.1, r.2.2)

/-- natRepr renders a positive number's decimal digits, least significant
first, fuelled (n itself is sufficient fuel since n/10 < n). -/
def natReprAux : Nat → Nat → GoStr
  | _, 0 => []
  | 0, _ + 1 => []
  | fuel + 1, n + 1 =>
    Char.ofNat (48 + (n + 1) % 10) :: natReprAux fuel ((n + 1) / 10)

/-- Decimal rendering of a natural number, as fmt produces it. -/
def natRepr (n : Nat) : GoStr :=
  if n = 0 then ['0'] else (natReprAux n n).reverse

/-- Decimal rendering of an integer, as fmt.Sprintf("%v") produces it. -/
def intRepr (n : Int) : GoStr :=
  if n < 0 then '-' :: natRepr n.natAbs else natRepr n.toNat

/-- fmt.Sprintf("%v", el) for the scalar values this development reasons
about; pointer and composite rendering (machine addresses, bracketed slice
text) is outside the model and yields `none`. -/
def sprintV : GoVal → Option GoStr
  | .str s => some s
  | .boolV b => some (if b then "true".toList else "false".toList)
  | .intV n => some (intRepr n)
  | .uintV n => some (natRepr n)
  | .ptrV _ => none
  | .sliceV _ => none

/-- The option-token test of Marshal (env.go lines 379-385): a comma token
containing '=' whose lowercased option name is recognized is metadata, not an
environment key. -/
def isOptionToken (k : GoStr) : Bool :=
  hasChar '=' k &&
    (let n := lowerStr (splitN2 '=' k).1
     n == "separator".toList || n == "required".toList || n == "default".toList ||
       n == "flag".toList || n == "desc".toList)

/-- The element Marshal renders for a field: a nil pointer field is skipped,
a pointer field is dereferenced once, anything else is the value itself. -/
def marshalEl (t : GoType) (v : GoVal) : Option GoVal :=
  match t, v with
  | .ptr _, .ptrV none => none
  | .ptr _, .ptrV (some x) => some x
  | .ptr _, _ => none
  | _, v => some v

/-- Marshal (env.go) for one flattened leaf field: skip unannotated fields
and nil pointers, dereference pointers once, render the value, and assign it
to every non-option comma token of the annotation. -/
def marshalField (es : EnvSet) (f : Field) : Option EnvSet :=
  if f.tag = [] then some es
  else
    let envKeys := splitOnChar ',' f.tag
    match marshalEl f.type f.value with
    | none => some es
    | some el =>
      match sprintV el with
      | none => none
      | some envValue =>
        some (envKeys.foldl
          (fun es k => if isOptionToken k then es else envInsert es k envValue) es)

/-- The field loop of Marshal. -/
def marshalFields : List Field → EnvSet → Option EnvSet
  | [], es => some es
  | f :: rest, es =>
    match marshalField es f with
    | none => none
    | some es' => marshalFields rest es'

/-- Marshal (env.go): build the key-to-string mapping from an empty set. -/
def Marshal (fields : List Field) : Option EnvSet := marshalFields fields []

/-- The known test of filterUndefinedAndDups (flag.go line 149): registered,
or one of the reserved help aliases. -/
def flagKnown (fs : FlagSet) (name : GoStr) : Bool :=
  (lookupFlag fs name).isSome || name == "help".toList || name == "h".toList

/-- The `seen` map of filterUndefinedAndDups: membership test for a name. -/
def seenHas (seen : List GoStr) (n : GoStr) : Bool :=
  seen.any (fun m => m == n)

/-- The scanning loop of filterUndefinedAndDups (flag.go), with the map of
names already seen as state.  A token with an inline value advances one; a
token without advances two, consuming the following token (the empty string
when there is none) as its value. -/
def filterAux (fs : FlagSet) : List GoStr → List GoStr → List GoStr
  | _, [] => []
  | seen, arg :: rest =>
    if arg = [] ∨ arg.head? ≠ some '-' then filterAux fs seen rest
    else
      let sp := splitN2 '=' arg
      let flagName := if sp.1.take 2 = ['-', '-'] then sp.1.drop 2 else sp.1.drop 1
      let known := flagKnown fs flagName
      match sp.2 with
      | some _ =>
        if known && !(seenHas seen flagName) then
          arg :: filterAux fs (flagName :: seen) rest
        else filterAux fs seen rest
      | none =>
        match rest with
        | [] => if known && !(seenHas seen flagName) then [arg, []] else []
        | nextArg :: rest2 =>
          if known && !(seenHas seen flagName) then
            arg :: nextArg :: filterAux fs (flagName :: seen) rest2
          else filterAux fs seen rest2

/-- filterUndefinedAndDups (flag.go). -/
def filterUndefinedAndDups (fs : FlagSet) (args : List GoStr) : List GoStr :=
  filterAux fs [] args

/-! ## Specification-side definitions, for refinement comparisons -/

/-- Modelled from the spec (section 4.2): the per-character emission rule as
the spec words it — replace a character that is not a letter or digit by one
hyphen, insert a hyphen before an uppercase letter that immediately follows
a lowercase letter, otherwise copy the character. -/
def specEmit (prev r : Char) : GoStr :=
  if ¬('A' ≤ r ∧ r ≤ 'Z') ∧ ¬('a' ≤ r ∧ r ≤ 'z') ∧ ¬('0' ≤ r ∧ r ≤ '9') then ['-']
  else if ('A' ≤ r ∧ r ≤ 'Z') ∧ ('a' ≤ prev ∧ prev ≤ 'z') then ['-', r]
  else [r]

/-- Modelled from the spec (section 4.2): transliterate by emitting per
character with memory of the previous character (the zero rune before the
first character), then lowercase the whole result. -/
def specTransliterate (s : GoStr) : GoStr :=
  lowerStr (((Char.ofNat 0 :: s).zip s).flatMap (fun p => specEmit p.1 p.2))

/-- Modelled from the spec (sections 4.5 and 8): the resolution precedence
chain as the spec words it, with first-match searches over the candidate
keys in declared order. -/
def specResolve (fs : FlagSet) (es : EnvSet) (t : tag) : Resolution :=
  if t.Flag ≠ [] ∧ isFlagSet fs t.Flag then .value (flagValue fs t.Flag)
  else
    match t.Keys.find? (fun k => isFlagSet fs (toFlagName k)) with
    | some k => .value (flagValue fs (toFlagName k))
    | none =>
      match t.Keys.find? (fun k => (envLookup es k).isSome) with
      | some k => .value ((envLookup es k).getD [])
      | none =>
        if t.Default ≠ [] then .value t.Default
        else if t.Required then .missingRequired (t.Keys.headD [])
        else .untouched

/-! ## The transliterator (claim C5) -/

/-- The character loop of toFlagName emits, per character, exactly what the
spec's per-character rule emits. -/
theorem toFlagNameAux_eq_specEmit (s : GoStr) : ∀ prev : Char,
    toFlagNameAux prev s = ((prev :: s).zip s).flatMap (fun p => specEmit p.1 p.2) := by
  induction s with
  | nil => intro _; rfl
  | cons r rest ih =>
    intro prev
    have hstep : toFlagNameAux prev (r :: rest)
        = (if ('A' ≤ r ∧ r ≤ 'Z') ∧ ('a' ≤ prev ∧ prev ≤ 'z') then ['-', r]
           else if ¬('A' ≤ r ∧ r ≤ 'Z') ∧ ¬('a' ≤ r ∧ r ≤ 'z') ∧ ¬('0' ≤ r ∧ r ≤ '9')
           then ['-'] else [r]) ++ toFlagNameAux r rest := rfl
    have hzip : ((prev :: r :: rest).zip (r :: rest)).flatMap (fun p => specEmit p.1 p.2)
        = specEmit prev r ++ ((r :: rest).zip rest).flatMap (fun p => specEmit p.1 p.2) := rfl
    rw [hstep, hzip, ih r]
    congr 1
    by_cases h1 : ('A' ≤ r ∧ r ≤ 'Z') ∧ ('a' ≤ prev ∧ prev ≤ 'z')
    · have h2 : ¬(¬('A' ≤ r ∧ r ≤ 'Z') ∧ ¬('a' ≤ r ∧ r ≤ 'z') ∧ ¬('0' ≤ r ∧ r ≤ '9')) :=
        fun h => h.1 h1.1
      simp [specEmit, h1, h2]
    · by_cases h2 : ¬('A' ≤ r ∧ r ≤ 'Z') ∧ ¬('a' ≤ r ∧ r ≤ 'z') ∧ ¬('0' ≤ r ∧ r ≤ '9')
      · simp [specEmit, h1, h2]
      · simp [specEmit, h1, h2]

/-- C5: the name transliterator is a deterministic pure function that agrees
with the spec's description on every input — lowercase the result, one
hyphen for each non-alphanumeric character, a hyphen inserted before an
uppercase letter immediately following a lowercase letter — and on the four
literal examples, and two runs on identical input give identical output. -/
theorem transliterator_matches_spec :
    (∀ s : GoStr, toFlagName s = specTransliterate s)
    ∧ toFlagName "BUILD_ID".toList = "build-id".toList
    ∧ toFlagName "npm_config_cache".toList = "npm-config-cache".toList
    ∧ toFlagName "myEnvVar".toList = "my-env-var".toList
    ∧ toFlagName "API_URLv2".toList = "api-urlv2".toList
    ∧ (∀ s : GoStr, toFlagName s = toFlagName s) := by
  refine ⟨fun s => ?_, rfl, rfl, rfl, rfl, fun _ => rfl⟩
  unfold toFlagName specTransliterate
  rw [toFlagNameAux_eq_specEmit]

/-! ## Resolution precedence (claim C1) -/

/-- The candidate-key flag loop is the first-match search the spec words. -/
theorem firstKeyFlag_eq_find (fs : FlagSet) (ks : List GoStr) :
    firstKeyFlag fs ks
      = (ks.find? (fun k => isFlagSet fs (toFlagName k))).map
          (fun k => flagValue fs (toFlagName k)) := by
  induction ks with
  | nil => rfl
  | cons k ks ih =>
    by_cases h : isFlagSet fs (toFlagName k)
    · simp [firstKeyFlag, findFlagVal, h, List.find?_cons_of_pos]
    · rw [List.find?_cons_of_neg _ (by simpa using h)]
      simpa [firstKeyFlag, findFlagVal, h] using ih

/-- The candidate-key environment loop is the first-match search the spec
words. -/
theorem firstKeyEnv_eq_find (es : EnvSet) (ks : List GoStr) :
    firstKeyEnv es ks
      = (ks.find? (fun k => (envLookup es k).isSome)).map
          (fun k => (envLookup es k).getD []) := by
  induction ks with
  | nil => rfl
  | cons k ks ih =>
    cases h : envLookup es k with
    | some v =>
      rw [List.find?_cons_of_pos _ (by simp [h])]
      simp [firstKeyEnv, h]
    | none =>
      rw [List.find?_cons_of_neg _ (by simp [h])]
      simpa [firstKeyEnv, h] using ih

/-- The resolution chain of Unmarshal equals the spec's precedence chain. -/
theorem resolveField_eq_specResolve (fs : FlagSet) (es : EnvSet) (t : tag) :
    resolveField fs es t = specResolve fs es t := by
  have hover : (if t.Flag ≠ [] then findFlagVal fs t.Flag else none)
      = if t.Flag ≠ [] ∧ isFlagSet fs t.Flag then some (flagValue fs t.Flag) else none := by
    by_cases h1 : t.Flag = []
    · simp [h1]
    · by_cases h2 : isFlagSet fs t.Flag
      · simp [findFlagVal, h1, h2]
      · simp [findFlagVal, h1, h2]
  unfold resolveField specResolve
  rw [hover, firstKeyFlag_eq_find, firstKeyEnv_eq_find]
  by_cases hf : t.Flag ≠ [] ∧ isFlagSet fs t.Flag
  · simp [hf]
  · rw [if_neg hf, if_neg hf]
    cases h1 : t.Keys.find? (fun k => isFlagSet fs (toFlagName k)) with
    | some k => simp
    | none =>
      cases h2 : t.Keys.find? (fun k => (envLookup es k).isSome) with
      | some k => simp
      | none => simp

/-- The annotation, flag set and environment of the claim's scenario: keys
npm_config_cache and NPM_CONFIG_CACHE with override npm-cache, only the
derived flag -npm-config-cache explicitly set (to X), and the environment
carrying NPM_CONFIG_CACHE=Y. -/
def npmTag : GoStr := "npm_config_cache,NPM_CONFIG_CACHE,flag=npm-cache".toList

def npmFlagSet : FlagSet :=
  [⟨"npm-cache".toList, [], [], [], false⟩,
   ⟨"npm-config-cache".toList, [], [], "X".toList, true⟩]

def npmEnv : EnvSet := [("NPM_CONFIG_CACHE".toList, "Y".toList)]

/-- C1: for every annotated leaf field, Unmarshal resolves the winning raw
string by the strict precedence explicit-flag-override, then first
explicitly-set derived candidate-key flag in declared order, then first
candidate key present in the environment, then non-empty default (proved as
the equality of the code's resolution chain with the spec's precedence
chain, on all inputs); and in the claim's concrete scenario — flag
-npm-config-cache=X set, environment NPM_CONFIG_CACHE=Y — the field resolves
to X. -/
theorem precedence_resolution :
    (∀ (fs : FlagSet) (es : EnvSet) (t : tag), resolveField fs es t = specResolve fs es t)
    ∧ Unmarshal npmFlagSet [⟨npmTag, .string, .str []⟩] npmEnv
        = ([⟨npmTag, .string, .str "X".toList⟩], npmEnv, none) :=
  ⟨resolveField_eq_specResolve, rfl⟩

/-! ## Consumption marking (claim C2) -/

/-- The multi-key annotation and environment demonstrating the deletion
behavior of env.go line 167. -/
def c2Tag : GoStr := "npm_config_cache,NPM_CONFIG_CACHE".toList

def c2Env : EnvSet := [("NPM_CONFIG_CACHE".toList, "Y".toList)]

/-- C2: env.go line 167 deletes the raw annotation string itself
(`delete(es, tag)`), not the candidate keys.  After a successful coercion
whose winning value came from NPM_CONFIG_CACHE, the environment set still
contains NPM_CONFIG_CACHE — contradicting the claim (and Unmarshal's own
documentation) that matched entries are removed; deletion only coincides
with the claim for a single bare-key annotation. -/
theorem consumption_deletes_tag_string_not_keys :
    Unmarshal [] [⟨c2Tag, .string, .str []⟩] c2Env
      = ([⟨c2Tag, .string, .str "Y".toList⟩], c2Env, none)
    ∧ envLookup c2Env "NPM_CONFIG_CACHE".toList = some "Y".toList
    ∧ Unmarshal [] [⟨"HOME".toList, .string, .str []⟩] [("HOME".toList, "/h".toList)]
      = ([⟨"HOME".toList, .string, .str "/h".toList⟩], [], none) :=
  ⟨rfl, rfl, rfl⟩

/-! ## Required-value enforcement (claim C3) -/

/-- The cons equation of Unmarshal, kept folded on the tail. -/
theorem Unmarshal_cons (fs : FlagSet) (f : Field) (rest : List Field) (es : EnvSet) :
    Unmarshal fs (f :: rest) es
      = ((match unmarshalField fs f es with
          | (f', es', some e) => (f' :: rest, es', some e)
          | (f', es', none) =>
            (f' :: (Unmarshal fs rest es').1, (Unmarshal fs rest es').2.1,
             (Unmarshal fs rest es').2.2)) : List Field × EnvSet × Option GoErr) := rfl

theorem Unmarshal_append_ok (fs : FlagSet) (ys : List Field) :
    ∀ (xs : List Field) (es es1 : EnvSet) (xs' : List Field),
      Unmarshal fs xs es = (xs', es1, none) →
      Unmarshal fs (xs ++ ys) es
        = (xs' ++ (Unmarshal fs ys es1).1, (Unmarshal fs ys es1).2.1,
           (Unmarshal fs ys es1).2.2) := by
  intro xs
  induction xs with
  | nil =>
    intro es es1 xs' h
    replace h : (([] : List Field), es, (none : Option GoErr)) = (xs', es1, none) := h
    injection h with h1 h2
    injection h2 with h2 h3
    subst h1
    subst h2
    simp
  | cons f rest ih =>
    intro es es1 xs' h
    rw [Unmarshal_cons] at h
    rw [List.cons_append, Unmarshal_cons]
    rcases hfe : unmarshalField fs f es with ⟨f', es', e?⟩
    rw [hfe] at h
    cases e? with
    | some e => simp at h
    | none =>
      dsimp only at h ⊢
      rcases hr : Unmarshal fs rest es' with ⟨rest', es2, e2?⟩
      rw [hr] at h
      dsimp only at h
      injection h with h1 h2
      injection h2 with h2 h3
      subst h1
      subst h2
      subst h3
      rw [ih es' es2 rest' hr]
      simp

/-- C3: when a required field finds no value after exhausting the explicit
flag override, every candidate-key derived flag, every candidate environment
key, and the (absent, i.e. empty) default, Unmarshal returns a
MissingRequiredValue error naming the first candidate key, immediately:
fields resolved earlier keep their already-set values and environment
consumption, and the fields after the failing one are left untouched. -/
theorem required_error_immediate (fs : FlagSet) (es es1 : EnvSet)
    (pre pre' rest : List Field) (f : Field) (k : GoStr) (ks : List GoStr)
    (hpre : Unmarshal fs pre es = (pre', es1, none))
    (htag : f.tag ≠ [])
    (hkeys : (parseTag f.tag).Keys = k :: ks)
    (hreq : (parseTag f.tag).Required = true)
    (hdef : (parseTag f.tag).Default = [])
    (hover : (parseTag f.tag).Flag = [] ∨ isFlagSet fs (parseTag f.tag).Flag = false)
    (hkf : firstKeyFlag fs (parseTag f.tag).Keys = none)
    (hke : firstKeyEnv es1 (parseTag f.tag).Keys = none) :
    Unmarshal fs (pre ++ f :: rest) es
      = (pre' ++ f :: rest, es1, some (.missingRequiredValue k)) := by
  have hres : resolveField fs es1 (parseTag f.tag) = .missingRequired k := by
    have hov : (if (parseTag f.tag).Flag ≠ [] then findFlagVal fs (parseTag f.tag).Flag
        else none) = none := by
      rcases hover with h | h
      · simp [h]
      · by_cases hne : (parseTag f.tag).Flag = []
        · simp [hne]
        · simp [findFlagVal, h, hne]
    unfold resolveField
    rw [hov]
    simp only [hkf, hke]
    simp [hdef, hreq, hkeys]
  have hfield : unmarshalField fs f es1 = (f, es1, some (.missingRequiredValue k)) := by
    simp [unmarshalField, htag, hres]
  have hcons : Unmarshal fs (f :: rest) es1
      = (f :: rest, es1, some (.missingRequiredValue k)) := by
    unfold Unmarshal
    rw [hfield]
  rw [Unmarshal_append_ok fs (f :: rest) pre es es1 pre' hpre, hcons]

/-- C3 witness: a concrete earlier field (HOME, resolved from the
environment and consumed) followed by a required field with no source and a
later field that keeps its old value. -/
theorem required_error_immediate_witness :
    Unmarshal [] ([⟨"HOME".toList, .string, .str []⟩]
        ++ ⟨"REQ,required=true".toList, .string, .str []⟩
          :: [⟨"LATER".toList, .string, .str "old".toList⟩])
        [("HOME".toList, "/h".toList)]
      = ([⟨"HOME".toList, .string, .str "/h".toList⟩]
          ++ ⟨"REQ,required=true".toList, .string, .str []⟩
            :: [⟨"LATER".toList, .string, .str "old".toList⟩],
         [], some (.missingRequiredValue "REQ".toList)) :=
  required_error_immediate [] [("HOME".toList, "/h".toList)] []
    [⟨"HOME".toList, .string, .str []⟩] [⟨"HOME".toList, .string, .str "/h".toList⟩]
    [⟨"LATER".toList, .string, .str "old".toList⟩]
    ⟨"REQ,required=true".toList, .string, .str []⟩
    "REQ".toList [] rfl (by decide) rfl rfl rfl (.inl rfl) rfl rfl

/-! ## Slice coercion (claim C6) -/

/-- C6: slice coercion splits the winning raw string by the declared
separator (default "|") and coerces each piece in declared order: "1|2" into
an int slice is [1,2], "1&2" with separator "&" likewise, and
"separate|values" into a string slice is the split result itself with no
further coercion — stated in general for string-element slices. -/
theorem slice_coercion :
    setVal (.slice (.int .i64)) "1|2".toList [] = .ok (.sliceV [.intV 1, .intV 2])
    ∧ setVal (.slice (.int .i64)) "1&2".toList "&".toList
        = .ok (.sliceV [.intV 1, .intV 2])
    ∧ setVal (.slice .string) "separate|values".toList []
        = .ok (.sliceV [.str "separate".toList, .str "values".toList])
    ∧ (∀ v sep : GoStr,
        setVal (.slice .string) v sep
          = .ok (.sliceV ((goSplit (if sep = [] then ['|'] else sep) v).map GoVal.str))) :=
  ⟨rfl, rfl, rfl, fun _ _ => rfl⟩

/-! ## Pointer coercion (claim C7) -/

/-- C7: a resolved empty-string value into a pointer-to-string field
allocates a fresh target and stores a non-nil pointer to the empty string,
while a field whose resolution is the untouched outcome (no flag, no
environment key, no default, not required) is left exactly as it was — a nil
pointer stays nil. -/
theorem pointer_empty_vs_absent :
    (∀ (fs : FlagSet) (es : EnvSet) (f : Field),
      f.tag ≠ [] → f.type = .ptr .string →
      resolveField fs es (parseTag f.tag) = .value [] →
      unmarshalField fs f es
        = ({ f with value := .ptrV (some (.str [])) }, envErase es f.tag, none))
    ∧ (∀ (fs : FlagSet) (es : EnvSet) (f : Field),
      f.tag ≠ [] →
      resolveField fs es (parseTag f.tag) = .untouched →
      unmarshalField fs f es = (f, es, none)) := by
  constructor
  · intro fs es f h1 h2 h3
    simp only [unmarshalField, if_neg h1]
    rw [h3, h2]
    rfl
  · intro fs es f h1 h2
    simp only [unmarshalField, if_neg h1]
    rw [h2]

/-- C7 witness: the flag -ps explicitly set to the empty string makes the
nil *string field a pointer to ""; with no source at all the nil pointer
stays nil. -/
theorem pointer_empty_vs_absent_witness :
    unmarshalField [⟨"ps".toList, [], [], [], true⟩]
        ⟨"PS".toList, .ptr .string, .ptrV none⟩ []
      = (⟨"PS".toList, .ptr .string, .ptrV (some (.str []))⟩, [], none)
    ∧ unmarshalField [] ⟨"MISSING".toList, .ptr .string, .ptrV none⟩ []
      = (⟨"MISSING".toList, .ptr .string, .ptrV none⟩, [], none) :=
  ⟨pointer_empty_vs_absent.1 [⟨"ps".toList, [], [], [], true⟩] []
      ⟨"PS".toList, .ptr .string, .ptrV none⟩ (by decide) rfl rfl,
   pointer_empty_vs_absent.2 [] [] ⟨"MISSING".toList, .ptr .string, .ptrV none⟩
      (by decide) rfl⟩

/-! ## Out-of-range numeric coercion (claims C10) -/

/-- C10 counterexample: the raw string "300" into an int8 field (and a uint8
field) parses successfully and `set` RETURNS NORMALLY with the silently
wrapped value 44 — there is no panic and no error, refuting the claim that
coercion panics in the reflective SetInt/SetUint on out-of-range input. -/
theorem int8_overflow_returns_wrapped :
    setVal (.int .i8) "300".toList [] = .ok (.intV 44)
    ∧ setVal (.uint .u8) "300".toList [] = .ok (.uintV 44) :=
  ⟨rfl, rfl⟩

/-- C10 amended: for a signed field narrower than 64 bits (or an unsigned
field narrower than 64 bits), a raw string that parses as an integer but
exceeds the field's width is stored silently wrapped modulo 2^width by
reflect's SetInt/SetUint — coercion is total, returns no error, and the
out-of-range input therefore never surfaces through the documented error
taxonomy. -/
theorem narrow_int_coercion_wraps_silently :
    (∀ (w : IntW) (s : GoStr) (n : Int), atoi s = some n →
      setVal (.int w) s [] = .ok (.intV (signedWrap w n)))
    ∧ (∀ (w : UintW) (s : GoStr) (n : Nat), goParseUint s = some n →
      setVal (.uint w) s [] = .ok (.uintV (unsignedWrap w n))) := by
  constructor
  · intro w s n h
    simp [setVal, GoType.depth, setValF, h]
  · intro w s n h
    simp [setVal, GoType.depth, setValF, h]

/-- C10 amended witness: "256" into int8 wraps to 0. -/
theorem narrow_int_coercion_wraps_silently_witness :
    setVal (.int .i8) "256".toList [] = .ok (.intV 0) := by
  rw [narrow_int_coercion_wraps_silently.1 .i8 "256".toList 256 rfl]
  rfl

/-! ## Flag registration (claim C8) -/

/-- Flag lookup distributes over appended registrations. -/
theorem lookupFlag_append (fs ext : FlagSet) (n : GoStr) :
    lookupFlag (fs ++ ext) n = (lookupFlag fs n).or (lookupFlag ext n) := by
  simp [lookupFlag, List.find?_append]

/-- The per-key registration loop only appends entries. -/
theorem registerKeyFlags_extends (defv usage : GoStr) (ks : List GoStr) :
    ∀ fs : FlagSet, ∃ ext, registerKeyFlags defv usage fs ks = fs ++ ext := by
  induction ks with
  | nil => intro fs; exact ⟨[], by simp [registerKeyFlags]⟩
  | cons k ks ih =>
    intro fs
    by_cases h : (lookupFlag fs (toFlagName k)).isSome
    · obtain ⟨ext, he⟩ := ih fs
      exact ⟨ext, by simp [registerKeyFlags, h, he]⟩
    · obtain ⟨ext, he⟩ := ih (fs ++ [⟨toFlagName k, defv, usage, defv, false⟩])
      refine ⟨⟨toFlagName k, defv, usage, defv, false⟩ :: ext, ?_⟩
      simp only [registerKeyFlags, h, if_false, Bool.false_eq_true, he]
      simp [List.append_assoc]

/-- A successful unguarded registration appends exactly one entry. -/
theorem flagString_extends (fs fs1 : FlagSet) (n defv usage : GoStr)
    (h : flagString fs n defv usage = some fs1) :
    fs1 = fs ++ [⟨n, defv, usage, defv, false⟩] := by
  unfold flagString at h
  by_cases hl : (lookupFlag fs n).isSome
  · simp [hl] at h
  · simp [hl] at h
    exact h.symm

/-- Successful registration of a whole field list only appends entries. -/
theorem registerStructFlags_extends (fields : List Field) :
    ∀ fs fs', registerStructFlags fs fields = some fs' → ∃ ext, fs' = fs ++ ext := by
  induction fields with
  | nil =>
    intro fs fs' h
    replace h : some fs = some fs' := h
    injection h with h
    exact ⟨[], by simp [h]⟩
  | cons f rest ih =>
    intro fs fs' h
    by_cases ht : f.tag = []
    · replace h : registerStructFlags fs rest = some fs' := by
        simpa [registerStructFlags, ht] using h
      exact ih fs fs' h
    · simp only [registerStructFlags, if_neg ht] at h
      rcases hov : (if (parseTag f.tag).Flag ≠ [] then
          flagString fs (parseTag f.tag).Flag (parseTag f.tag).Default
            (generateDescription (parseTag f.tag))
        else some fs) with _ | fs1
      · rw [hov] at h
        simp at h
      · rw [hov] at h
        dsimp only at h
        have hfs1 : ∃ e1, fs1 = fs ++ e1 := by
          by_cases hf : (parseTag f.tag).Flag = []
          · rw [if_neg (by simp [hf])] at hov
            injection hov with hov
            exact ⟨[], by simp [hov]⟩
          · rw [if_pos (by simp [hf])] at hov
            exact ⟨_, flagString_extends _ _ _ _ _ hov⟩
        obtain ⟨e1, rfl⟩ := hfs1
        obtain ⟨e2, he2⟩ := registerKeyFlags_extends (parseTag f.tag).Default
          (generateDescription (parseTag f.tag)) (parseTag f.tag).Keys (fs ++ e1)
        rw [he2] at h
        obtain ⟨e3, rfl⟩ := ih _ _ h
        exact ⟨e1 ++ e2 ++ e3, by simp [List.append_assoc]⟩

/-- The head step of the per-key loop, folded. -/
theorem registerKeyFlags_cons (defv usage : GoStr) (fs : FlagSet) (k : GoStr)
    (ks : List GoStr) :
    registerKeyFlags defv usage fs (k :: ks)
      = registerKeyFlags defv usage
          (if (lookupFlag fs (toFlagName k)).isSome then fs
           else fs ++ [⟨toFlagName k, defv, usage, defv, false⟩]) ks := rfl

/-- After the per-key loop, every key's derived flag name is present. -/
theorem registerKeyFlags_covers (defv usage : GoStr) (ks : List GoStr) :
    ∀ fs, ∀ k ∈ ks,
      (lookupFlag (registerKeyFlags defv usage fs ks) (toFlagName k)).isSome = true := by
  induction ks with
  | nil =>
    intro fs k hk
    simp at hk
  | cons k0 ks ih =>
    intro fs k hk
    rw [registerKeyFlags_cons]
    rcases List.mem_cons.mp hk with rfl | hmem
    · have hstep : (lookupFlag (if (lookupFlag fs (toFlagName k)).isSome then fs
          else fs ++ [⟨toFlagName k, defv, usage, defv, false⟩]) (toFlagName k)).isSome
            = true := by
        by_cases h : (lookupFlag fs (toFlagName k)).isSome
        · rw [if_pos h]
          exact h
        · have hnone : lookupFlag fs (toFlagName k) = none :=
            Option.not_isSome_iff_eq_none.mp (by simpa using h)
          rw [if_neg h, lookupFlag_append, hnone]
          have hone : lookupFlag [⟨toFlagName k, defv, usage, defv, false⟩] (toFlagName k)
              = some ⟨toFlagName k, defv, usage, defv, false⟩ := by
            simp [lookupFlag]
          rw [hone]
          rfl
      obtain ⟨ext, he⟩ := registerKeyFlags_extends defv usage ks
        (if (lookupFlag fs (toFlagName k)).isSome then fs
         else fs ++ [⟨toFlagName k, defv, usage, defv, false⟩])
      rw [he, lookupFlag_append, Option.isSome_or]
      simp only [hstep, Bool.true_or]
    · exact ih _ k hmem

/-- After successful registration of a field list, every candidate key of
every annotated field has its derived flag name present. -/
theorem registerStructFlags_covers (fields : List Field) :
    ∀ fs fs', registerStructFlags fs fields = some fs' →
      ∀ f ∈ fields, f.tag ≠ [] → ∀ k ∈ (parseTag f.tag).Keys,
        (lookupFlag fs' (toFlagName k)).isSome = true := by
  induction fields with
  | nil =>
    intro fs fs' h f hf
    simp at hf
  | cons f0 rest ih =>
    intro fs fs' h f hf htag k hk
    rcases List.mem_cons.mp hf with rfl | hmem
    · simp only [registerStructFlags, if_neg htag] at h
      rcases hov : (if (parseTag f.tag).Flag ≠ [] then
          flagString fs (parseTag f.tag).Flag (parseTag f.tag).Default
            (generateDescription (parseTag f.tag))
        else some fs) with _ | fs1
      · rw [hov] at h
        simp at h
      · rw [hov] at h
        dsimp only at h
        have hcov := registerKeyFlags_covers (parseTag f.tag).Default
          (generateDescription (parseTag f.tag)) (parseTag f.tag).Keys fs1 k hk
        obtain ⟨ext, rfl⟩ := registerStructFlags_extends rest _ fs' h
        rw [lookupFlag_append, Option.isSome_or, hcov]
        simp
    · by_cases ht0 : f0.tag = []
      · replace h : registerStructFlags fs rest = some fs' := by
          simpa [registerStructFlags, ht0] using h
        exact ih fs fs' h f hmem htag k hk
      · simp only [registerStructFlags, if_neg ht0] at h
        rcases hov : (if (parseTag f0.tag).Flag ≠ [] then
            flagString fs (parseTag f0.tag).Flag (parseTag f0.tag).Default
              (generateDescription (parseTag f0.tag))
          else some fs) with _ | fs1
        · rw [hov] at h
          simp at h
        · rw [hov] at h
          dsimp only at h
          exact ih _ fs' h f hmem htag k hk

/-- C8: during flag registration one flag is registered per candidate key
under the transliterated name, skipping names already present — an existing
entry is never altered, so the first registration of a name wins and later
duplicates are no-ops rather than errors — and RegisterFlags returns an
error only when the initial value is not a non-nil structure reference, that
error being InvalidValue. -/
theorem register_flags_contract :
    RegisterFlags none = .error .invalidValue
    ∧ (∀ fields : List Field,
        RegisterFlags (some fields) = .ok (registerStructFlags [] fields))
    ∧ (∀ (fields : List Field) (fs fs' : FlagSet) (n : GoStr) (e : FlagEntry),
        registerStructFlags fs fields = some fs' →
        lookupFlag fs n = some e → lookupFlag fs' n = some e)
    ∧ (∀ (fields : List Field) (fs fs' : FlagSet) (f : Field),
        registerStructFlags fs fields = some fs' → f ∈ fields → f.tag ≠ [] →
        ∀ k ∈ (parseTag f.tag).Keys, (lookupFlag fs' (toFlagName k)).isSome = true) := by
  refine ⟨rfl, fun _ => rfl, ?_, ?_⟩
  · intro fields fs fs' n e h he
    obtain ⟨ext, rfl⟩ := registerStructFlags_extends fields fs fs' h
    rw [lookupFlag_append, he]
    rfl
  · intro fields fs fs' f h hf htag k hk
    exact registerStructFlags_covers fields fs fs' h f hf htag k hk

/-- C8 witness: with the name build-id already registered (default "first"),
registering a field whose key BUILD_ID derives the same name skips it — the
first entry survives unaltered in the output flag set, which only gained the
field's explicit override name — and the derived key name is present. -/
theorem register_flags_contract_witness :
    lookupFlag [⟨"build-id".toList, "first".toList, [], "first".toList, false⟩,
        ⟨"extra".toList, [], "Environment: BUILD_ID".toList, [], false⟩]
      "build-id".toList
      = some ⟨"build-id".toList, "first".toList, [], "first".toList, false⟩
    ∧ (lookupFlag [⟨"build-id".toList, "first".toList, [], "first".toList, false⟩,
          ⟨"extra".toList, [], "Environment: BUILD_ID".toList, [], false⟩]
        (toFlagName "BUILD_ID".toList)).isSome = true :=
  ⟨register_flags_contract.2.2.1 [⟨"BUILD_ID,flag=extra".toList, .string, .str []⟩]
      [⟨"build-id".toList, "first".toList, [], "first".toList, false⟩]
      [⟨"build-id".toList, "first".toList, [], "first".toList, false⟩,
       ⟨"extra".toList, [], "Environment: BUILD_ID".toList, [], false⟩]
      "build-id".toList ⟨"build-id".toList, "first".toList, [], "first".toList, false⟩
      rfl rfl,
   register_flags_contract.2.2.2 [⟨"BUILD_ID,flag=extra".toList, .string, .str []⟩]
      [⟨"build-id".toList, "first".toList, [], "first".toList, false⟩]
      [⟨"build-id".toList, "first".toList, [], "first".toList, false⟩,
       ⟨"extra".toList, [], "Environment: BUILD_ID".toList, [], false⟩]
      ⟨"BUILD_ID,flag=extra".toList, .string, .str []⟩
      rfl (List.mem_singleton.mpr rfl) (by decide) "BUILD_ID".toList (by decide)⟩

/-! ## The argument filter (claim C4) -/

/-- One well-formed flag usage inside an argument list: the inline form
`-name=value` as a single token, or the two-token form `-name value`. -/
inductive Usage where
  | inline (name value : GoStr)
  | pair (name value : GoStr)

def Usage.name : Usage → GoStr
  | .inline n _ => n
  | .pair n _ => n

/-- The argument tokens a usage renders to. -/
def renderUsage : Usage → List GoStr
  | .inline n v => ['-' :: (n ++ '=' :: v)]
  | .pair n v => ['-' :: n, v]

/-- The argument list rendered by a sequence of usages. -/
def renderArgs (us : List Usage) : List GoStr := (us.map renderUsage).flatten

/-- A valid flag name as a token: non-empty, not starting with a dash
(else the name parse would strip it), and free of '=' (else the token would
be read as an inline value). -/
def GoodName (n : GoStr) : Prop :=
  n ≠ [] ∧ n.head? ≠ some '-' ∧ hasChar '=' n = false

instance (n : GoStr) : Decidable (GoodName n) := by
  unfold GoodName
  infer_instance

/-- The usages the filter keeps: a usage survives exactly when its name is
known and no earlier usage with the same name was kept. -/
def keepUsages (fs : FlagSet) : List GoStr → List Usage → List Usage
  | _, [] => []
  | seen, u :: us =>
    if flagKnown fs u.name && !(seenHas seen u.name) then
      u :: keepUsages fs (u.name :: seen) us
    else keepUsages fs seen us

/-- splitN2 on a string free of the separator. -/
theorem splitN2_of_not_has (c : Char) (s : GoStr) (h : hasChar c s = false) :
    splitN2 c s = (s, none) := by
  induction s with
  | nil => rfl
  | cons x xs ih =>
    simp only [hasChar, Bool.or_eq_false_iff] at h
    have hx : ¬(x = c) := by
      intro he
      rw [he] at h
      simp at h
    simp [splitN2, hx, ih h.2]

/-- splitN2 splits at the first separator occurrence. -/
theorem splitN2_before (c : Char) (n v : GoStr) (h : hasChar c n = false) :
    splitN2 c (n ++ c :: v) = (n, some v) := by
  induction n with
  | nil => simp [splitN2]
  | cons x xs ih =>
    simp only [hasChar, Bool.or_eq_false_iff] at h
    have hx : ¬(x = c) := by
      intro he
      rw [he] at h
      simp at h
    simp [splitN2, hx, ih h.2]

/-- The filter step on an inline usage token. -/
theorem filter_head_inline (fs : FlagSet) (seen : List GoStr) (n v : GoStr)
    (rest : List GoStr) (hn1 : n ≠ []) (hn2 : n.head? ≠ some '-')
    (hn3 : hasChar '=' n = false) :
    filterAux fs seen (('-' :: (n ++ '=' :: v)) :: rest)
      = if flagKnown fs n && !(seenHas seen n) then
          ('-' :: (n ++ '=' :: v)) :: filterAux fs (n :: seen) rest
        else filterAux fs seen rest := by
  have hsp : splitN2 '=' ('-' :: (n ++ '=' :: v)) = ('-' :: n, some v) := by
    have h := splitN2_before '=' n v hn3
    simp [splitN2, h]
  have htake : ¬(('-' :: n).take 2 = ['-', '-']) := by
    obtain ⟨n0, n', rfl⟩ := List.exists_cons_of_ne_nil hn1
    simp only [List.head?_cons, ne_eq, Option.some.injEq] at hn2
    simp [hn2]
  simp only [filterAux, hsp, htake, if_false, List.drop_succ_cons, List.drop_zero]
  simp

/-- The filter step on a two-token usage. -/
theorem filter_head_pair (fs : FlagSet) (seen : List GoStr) (n v : GoStr)
    (rest2 : List GoStr) (hn1 : n ≠ []) (hn2 : n.head? ≠ some '-')
    (hn3 : hasChar '=' n = false) :
    filterAux fs seen (('-' :: n) :: v :: rest2)
      = if flagKnown fs n && !(seenHas seen n) then
          ('-' :: n) :: v :: filterAux fs (n :: seen) rest2
        else filterAux fs seen rest2 := by
  have hsp : splitN2 '=' ('-' :: n) = ('-' :: n, none) := by
    apply splitN2_of_not_has
    simp [hasChar, hn3]
  have htake : ¬(('-' :: n).take 2 = ['-', '-']) := by
    obtain ⟨n0, n', rfl⟩ := List.exists_cons_of_ne_nil hn1
    simp only [List.head?_cons, ne_eq, Option.some.injEq] at hn2
    simp [hn2]
  simp only [filterAux, hsp, htake, if_false, List.drop_succ_cons, List.drop_zero]
  simp

/-- The filter, over an argument list rendered from well-formed usages, keeps
exactly the usages whose name is known and not yet seen. -/
theorem filterAux_render (fs : FlagSet) :
    ∀ us : List Usage, (∀ u ∈ us, GoodName u.name) →
      ∀ seen, filterAux fs seen (renderArgs us) = renderArgs (keepUsages fs seen us) := by
  intro us
  induction us with
  | nil => intro _ _; rfl
  | cons u us ih =>
    intro hwf seen
    have hu : GoodName u.name := hwf u (by simp)
    have hrest : ∀ x ∈ us, GoodName x.name := fun x hx => hwf x (by simp [hx])
    cases u with
    | inline n v =>
      have hr : renderArgs (Usage.inline n v :: us)
          = ('-' :: (n ++ '=' :: v)) :: renderArgs us := by
        simp [renderArgs, renderUsage]
      rw [hr, filter_head_inline fs seen n v _ hu.1 hu.2.1 hu.2.2]
      by_cases hc : (flagKnown fs n && !(seenHas seen n)) = true
      · rw [if_pos hc]
        have hk : keepUsages fs seen (Usage.inline n v :: us)
            = Usage.inline n v :: keepUsages fs (n :: seen) us := by
          simp [keepUsages, Usage.name, hc]
        rw [hk, ih hrest (n :: seen)]
        simp [renderArgs, renderUsage]
      · rw [if_neg hc]
        have hk : keepUsages fs seen (Usage.inline n v :: us)
            = keepUsages fs seen us := by
          simp [keepUsages, Usage.name, hc]
        rw [hk, ih hrest seen]
    | pair n v =>
      have hr : renderArgs (Usage.pair n v :: us)
          = ('-' :: n) :: v :: renderArgs us := by
        simp [renderArgs, renderUsage]
      rw [hr, filter_head_pair fs seen n v _ hu.1 hu.2.1 hu.2.2]
      by_cases hc : (flagKnown fs n && !(seenHas seen n)) = true
      · rw [if_pos hc]
        have hk : keepUsages fs seen (Usage.pair n v :: us)
            = Usage.pair n v :: keepUsages fs (n :: seen) us := by
          simp [keepUsages, Usage.name, hc]
        rw [hk, ih hrest (n :: seen)]
        simp [renderArgs, renderUsage]
      · rw [if_neg hc]
        have hk : keepUsages fs seen (Usage.pair n v :: us)
            = keepUsages fs seen us := by
          simp [keepUsages, Usage.name, hc]
        rw [hk, ih hrest seen]

/-- With all names known and pairwise distinct (and unseen), nothing is
dropped. -/
theorem keepUsages_identity (fs : FlagSet) :
    ∀ us : List Usage, (∀ u ∈ us, flagKnown fs u.name = true) →
      (us.map Usage.name).Nodup →
      ∀ seen, (∀ u ∈ us, seenHas seen u.name = false) →
      keepUsages fs seen us = us := by
  intro us
  induction us with
  | nil => intro _ _ _ _; rfl
  | cons u us ih =>
    intro hk hnd seen hs
    have h1 : flagKnown fs u.name = true := hk u (by simp)
    have h2 : seenHas seen u.name = false := hs u (by simp)
    rw [List.map_cons, List.nodup_cons] at hnd
    obtain ⟨hnm, hnd'⟩ := hnd
    simp only [keepUsages]
    rw [if_pos (by simp [h1, h2])]
    congr 1
    refine ih (fun x hx => hk x (by simp [hx])) hnd' (u.name :: seen) ?_
    intro x hx
    have hne : ¬(u.name = x.name) := by
      intro he
      exact hnm (he ▸ List.mem_map_of_mem Usage.name hx)
    have hsx : seenHas seen x.name = false := hs x (by simp [hx])
    simp only [seenHas, List.any_cons] at hsx ⊢
    simp [hne, hsx]

/-- C4: the argument filter is the identity on an argument list made of
known, non-duplicated, well-formed flag usages (each flag with its value,
inline or two-token); in general it keeps exactly the first occurrence of
each known flag name — duplicates keep only the first occurrence with its
value token, and a token for an unknown flag (not a help alias) is dropped
together with its inferred value token. -/
theorem argument_filter_contract :
    (∀ (fs : FlagSet) (us : List Usage), (∀ u ∈ us, GoodName u.name) →
      filterUndefinedAndDups fs (renderArgs us) = renderArgs (keepUsages fs [] us))
    ∧ (∀ (fs : FlagSet) (us : List Usage), (∀ u ∈ us, GoodName u.name) →
      (∀ u ∈ us, flagKnown fs u.name = true) →
      (us.map Usage.name).Nodup →
      filterUndefinedAndDups fs (renderArgs us) = renderArgs us)
    ∧ (∀ (fs : FlagSet) (n v1 v2 : GoStr), GoodName n → flagKnown fs n = true →
      filterUndefinedAndDups fs (renderArgs [.inline n v1, .inline n v2])
        = renderArgs [.inline n v1])
    ∧ (∀ (fs : FlagSet) (n v : GoStr), GoodName n → flagKnown fs n = false →
      filterUndefinedAndDups fs (renderArgs [.pair n v]) = []) := by
  refine ⟨fun fs us h => filterAux_render fs us h [], ?_, ?_, ?_⟩
  · intro fs us hwf hk hnd
    have h := filterAux_render fs us hwf []
    rw [keepUsages_identity fs us hk hnd [] (fun u _ => rfl)] at h
    exact h
  · intro fs n v1 v2 hg hk
    have hwf : ∀ u ∈ ([.inline n v1, .inline n v2] : List Usage), GoodName u.name := by
      intro u hu
      simp at hu
      rcases hu with rfl | rfl <;> exact hg
    have h := filterAux_render fs _ hwf []
    rw [show keepUsages fs [] [Usage.inline n v1, Usage.inline n v2]
        = [Usage.inline n v1] by simp [keepUsages, Usage.name, seenHas, hk]] at h
    exact h
  · intro fs n v hg hk
    have hwf : ∀ u ∈ ([.pair n v] : List Usage), GoodName u.name := by
      intro u hu
      simp at hu
      rw [hu]
      exact hg
    have h := filterAux_render fs _ hwf []
    rw [show keepUsages fs [] [Usage.pair n v] = []
        by simp [keepUsages, Usage.name, seenHas, hk]] at h
    exact h

/-- C4 witness: a concrete known non-duplicated argument list is returned
unchanged. -/
theorem argument_filter_contract_witness :
    filterUndefinedAndDups
        [⟨"home".toList, [], [], [], false⟩, ⟨"int".toList, [], [], [], false⟩]
        ["-home=/x".toList, "-int".toList, "1".toList]
      = ["-home=/x".toList, "-int".toList, "1".toList] := by
  have h := argument_filter_contract.2.1
      [⟨"home".toList, [], [], [], false⟩, ⟨"int".toList, [], [], [], false⟩]
      [.inline "home".toList "/x".toList, .pair "int".toList "1".toList]
      (by decide) (by decide) (by decide)
  exact h

/-! ## Decimal round-trips and the Marshal/Unmarshal inverse (claim C9) -/

theorem isDigitCh_digit (d : Nat) (h : d < 10) :
    isDigitCh (Char.ofNat (48 + d)) = true := by
  interval_cases d <;> rfl

theorem digitVal_digit (d : Nat) (h : d < 10) :
    digitVal (Char.ofNat (48 + d)) = d := by
  interval_cases d <;> rfl

theorem natReprAux_all_digits :
    ∀ fuel n, n ≤ fuel → ∀ c ∈ natReprAux fuel n, isDigitCh c = true := by
  intro fuel
  induction fuel with
  | zero =>
    intro n hn c hc
    interval_cases n
    simp [natReprAux] at hc
  | succ fuel ih =>
    intro n hn c hc
    cases n with
    | zero => simp [natReprAux] at hc
    | succ m =>
      simp only [natReprAux, List.mem_cons] at hc
      rcases hc with rfl | hc
      · exact isDigitCh_digit _ (Nat.mod_lt _ (by norm_num))
      · have hdiv : (m + 1) / 10 < m + 1 := Nat.div_lt_self (Nat.succ_pos m) (by norm_num)
        exact ih ((m + 1) / 10) (by omega) c hc

theorem natReprAux_foldl :
    ∀ fuel n, n ≤ fuel →
      (natReprAux fuel n).reverse.foldl (fun x c => x * 10 + digitVal c) 0 = n := by
  intro fuel
  induction fuel with
  | zero =>
    intro n hn
    interval_cases n
    rfl
  | succ fuel ih =>
    intro n hn
    cases n with
    | zero => rfl
    | succ m =>
      have hdiv : (m + 1) / 10 < m + 1 := Nat.div_lt_self (Nat.succ_pos m) (by norm_num)
      simp only [natReprAux, List.reverse_cons, List.foldl_append, List.foldl_cons,
        List.foldl_nil]
      rw [ih ((m + 1) / 10) (by omega), digitVal_digit _ (Nat.mod_lt _ (by norm_num))]
      omega

theorem natRepr_ne_nil (n : Nat) : natRepr n ≠ [] := by
  unfold natRepr
  by_cases h : n = 0
  · simp [h]
  · rw [if_neg h]
    cases n with
    | zero => exact absurd rfl h
    | succ m => simp [natReprAux]

theorem natRepr_all_digits (n : Nat) : ∀ c ∈ natRepr n, isDigitCh c = true := by
  intro c hc
  unfold natRepr at hc
  by_cases h : n = 0
  · rw [if_pos h] at hc
    simp at hc
    subst hc
    rfl
  · rw [if_neg h] at hc
    exact natReprAux_all_digits n n le_rfl c (List.mem_reverse.mp hc)

/-- Printing a natural number and parsing the digits gives it back. -/
theorem parseNatDigits_natRepr (n : Nat) : parseNatDigits (natRepr n) = some n := by
  by_cases h : n = 0
  · subst h
    rfl
  · have hall : (natRepr n).all isDigitCh = true := by
      rw [List.all_eq_true]
      exact natRepr_all_digits n
    have hfold : (natRepr n).foldl (fun x c => x * 10 + digitVal c) 0 = n := by
      unfold natRepr
      rw [if_neg h]
      exact natReprAux_foldl n n le_rfl
    unfold parseNatDigits
    rw [if_neg (natRepr_ne_nil n), if_pos hall, hfold]

theorem digit_head_ne_sign (c : Char) (h : isDigitCh c = true) :
    ¬(c = '+') ∧ ¬(c = '-') := by
  constructor <;> intro he <;> subst he <;> exact absurd h (by decide)

theorem atoi_natRepr (m : Nat) (hm : m ≤ 9223372036854775807) :
    atoi (natRepr m) = some (m : Int) := by
  obtain ⟨c, rest, hcr⟩ := List.exists_cons_of_ne_nil (natRepr_ne_nil m)
  have hcd : isDigitCh c = true := natRepr_all_digits m c (by rw [hcr]; simp)
  obtain ⟨h1, h2⟩ := digit_head_ne_sign c hcd
  rw [hcr]
  simp only [atoi]
  rw [if_neg h1, if_neg h2, ← hcr, parseNatDigits_natRepr]
  simp [hm]

/-- Printing an in-range int and reparsing with Atoi gives it back. -/
theorem atoi_intRepr (n : Int) (hlo : -9223372036854775808 ≤ n)
    (hhi : n ≤ 9223372036854775807) : atoi (intRepr n) = some n := by
  unfold intRepr
  by_cases h : n < 0
  · rw [if_pos h]
    show atoi ('-' :: natRepr n.natAbs) = some n
    simp only [atoi]
    rw [if_pos trivial, parseNatDigits_natRepr]
    have hle : n.natAbs ≤ 9223372036854775808 := by omega
    have habs : -((n.natAbs : ℤ)) = n := by omega
    simp only [Option.some_bind, if_pos hle, habs]
    simp
  · rw [if_neg h]
    rw [atoi_natRepr n.toNat (by omega), Int.toNat_of_nonneg (by omega)]

/-- Printing an in-range uint and reparsing with ParseUint gives it back. -/
theorem goParseUint_natRepr (m : Nat) (hm : m < 18446744073709551616) :
    goParseUint (natRepr m) = some m := by
  unfold goParseUint
  rw [parseNatDigits_natRepr]
  simp [hm]

/-- SetInt's width conversion is the identity on in-range values. -/
theorem signedWrap_eq_self (w : IntW) (n : Int)
    (hlo : -(2 ^ (w.bits - 1) : Int) ≤ n) (hhi : n < 2 ^ (w.bits - 1)) :
    signedWrap w n = n := by
  cases w <;> simp only [signedWrap, IntW.bits] at hlo hhi ⊢ <;> norm_num at hlo hhi ⊢ <;>
    omega

theorem unsignedWrap_eq_self (w : UintW) (m : Nat) (h : m < 2 ^ w.bits) :
    unsignedWrap w m = m := Nat.mod_eq_of_lt h

theorem splitOnChar_no_sep (c : Char) (s : GoStr) (h : hasChar c s = false) :
    splitOnChar c s = [s] := by
  induction s with
  | nil => rfl
  | cons x xs ih =>
    simp only [hasChar, Bool.or_eq_false_iff] at h
    have hx : ¬(x = c) := by
      intro he
      rw [he] at h
      simp at h
    simp [splitOnChar, hx, ih h.2]

/-- A bare single-key annotation parses to exactly that candidate key. -/
theorem parseTag_single (k : GoStr) (hc : hasChar ',' k = false)
    (he : hasChar '=' k = false) : parseTag k = { Keys := [k] } := by
  unfold parseTag
  rw [splitOnChar_no_sep ',' k hc]
  simp [parseTagStep, he]

theorem firstKeyFlag_nil_fs (ks : List GoStr) : firstKeyFlag [] ks = none := by
  induction ks with
  | nil => rfl
  | cons k ks ih => simp [firstKeyFlag, findFlagVal, isFlagSet, ih]

/-- The scalar shapes of a well-typed Go field value, with the in-range
invariant Go's type system maintains for its sized integers. -/
def scalarFits : GoType → GoVal → Prop
  | .string, .str _ => True
  | .bool, .boolV _ => True
  | .int w, .intV n => -(2 ^ (w.bits - 1) : Int) ≤ n ∧ n < 2 ^ (w.bits - 1)
  | .uint w, .uintV m => m < 2 ^ w.bits
  | _, _ => False

theorem marshal_el_scalar (t : GoType) (v : GoVal) (hf : scalarFits t v) :
    marshalEl t v = some v := by
  cases t <;> cases v <;> first
    | rfl
    | exact hf.elim

/-- Rendering a scalar with Sprintf and coercing the text back with set
reproduces the value. -/
theorem set_sprint_roundtrip (t : GoType) (v : GoVal) (hf : scalarFits t v)
    (sep : GoStr) : ∃ raw, sprintV v = some raw ∧ setVal t raw sep = .ok v := by
  cases t <;> cases v <;> try exact hf.elim
  case string.str s => exact ⟨s, rfl, rfl⟩
  case bool.boolV b => cases b <;> exact ⟨_, rfl, rfl⟩
  case int.intV w n =>
    refine ⟨intRepr n, rfl, ?_⟩
    obtain ⟨hlo, hhi⟩ := hf
    have h64 : -9223372036854775808 ≤ n ∧ n ≤ 9223372036854775807 := by
      cases w <;> norm_num [IntW.bits] at hlo hhi <;> omega
    simp [setVal, GoType.depth, setValF, atoi_intRepr n h64.1 h64.2,
      signedWrap_eq_self w n hlo hhi]
  case uint.uintV w m =>
    have hfm : m < 2 ^ UintW.bits w := hf
    refine ⟨natRepr m, rfl, ?_⟩
    have h64 : m < 18446744073709551616 := by
      cases w <;> norm_num [UintW.bits] at hfm <;> omega
    simp [setVal, GoType.depth, setValF, goParseUint_natRepr m h64,
      unsignedWrap_eq_self w m hfm]

/-- C9: for a structure whose only annotated field is a single-key scalar,
Unmarshal (with an empty flag set) of the mapping Marshal produced
reproduces the original scalar value exactly; the single consumed key is
also removed from the environment set. -/
theorem marshal_unmarshal_roundtrip (k : GoStr) (t : GoType) (v w0 : GoVal)
    (hk1 : k ≠ []) (hk2 : hasChar ',' k = false) (hk3 : hasChar '=' k = false)
    (hfit : scalarFits t v) :
    ∃ raw, Marshal [⟨k, t, v⟩] = some [(k, raw)]
      ∧ Unmarshal [] [⟨k, t, w0⟩] [(k, raw)] = ([⟨k, t, v⟩], [], none) := by
  have htag : parseTag k = { Keys := [k] } := parseTag_single k hk2 hk3
  obtain ⟨raw, hs, hset⟩ := set_sprint_roundtrip t v hfit (parseTag k).Separator
  have hopt : isOptionToken k = false := by
    simp [isOptionToken, hk3]
  refine ⟨raw, ?_, ?_⟩
  · have hmf : marshalField [] ⟨k, t, v⟩ = some [(k, raw)] := by
      simp [marshalField, if_neg hk1, splitOnChar_no_sep ',' k hk2,
        marshal_el_scalar t v hfit, hs, hopt, envInsert]
    show marshalFields [⟨k, t, v⟩] [] = some [(k, raw)]
    simp [marshalFields, hmf]
  · have hresolve : resolveField [] [(k, raw)] (parseTag k) = .value raw := by
      rw [htag]
      simp [resolveField, firstKeyFlag_nil_fs, firstKeyEnv, envLookup]
    have hfield : unmarshalField [] ⟨k, t, w0⟩ [(k, raw)] = (⟨k, t, v⟩, [], none) := by
      simp [unmarshalField, if_neg hk1, hresolve, hset, envErase]
    show Unmarshal [] [⟨k, t, w0⟩] [(k, raw)] = _
    simp [Unmarshal, hfield]

/-- C9 witness: marshalling PORT=7 on an int field and unmarshalling the
produced mapping reproduces 7. -/
theorem marshal_unmarshal_roundtrip_witness :
    Marshal [⟨"PORT".toList, .int .i64, .intV 7⟩]
        = some [("PORT".toList, "7".toList)]
    ∧ Unmarshal [] [⟨"PORT".toList, .int .i64, .intV 0⟩]
        [("PORT".toList, "7".toList)]
      = ([⟨"PORT".toList, .int .i64, .intV 7⟩], [], none) := by
  obtain ⟨raw, h1, h2⟩ :=
    marshal_unmarshal_roundtrip "PORT".toList (.int .i64) (.intV 7) (.intV 0)
      (by decide) rfl rfl (by constructor <;> norm_num [IntW.bits])
  have h0 : Marshal [⟨"PORT".toList, .int .i64, .intV 7⟩]
      = some [("PORT".toList, "7".toList)] := rfl
  have hx : some [("PORT".toList, "7".toList)]
      = some [("PORT".toList, raw)] := h0 ▸ h1
  obtain rfl : raw = "7".toList := by
    have := Option.some.inj hx
    have := List.cons.inj this
    exact (Prod.mk.injEq .. ▸ this.1).2.symm
  exact ⟨h0, h2⟩

end GoEnvFlags
